import Mathlib

/-!
Verification of the ledger engine in basic_block_gp/blockchain.py.

The Python code is shallowly embedded: the mutable Blockchain object
becomes explicit state passing over BCState, the wall-clock timestamp
read by time() becomes an explicit parameter (carried as the decimal
text json.dumps would emit for it), hashlib.sha256 is implemented
bit-faithfully over Nat (all 32-bit arithmetic is explicit mod 2^32),
and json.dumps(obj, sort_keys=True) is implemented for the fixed
shapes the program serializes (block and transaction dictionaries).
-/

/-! ## SHA-256 over byte lists (hashlib.sha256).
Words are Nat kept below 2^32 by explicit reduction mod 4294967296. -/

def rotr (n x : Nat) : Nat := ((x >>> n) ||| (x <<< (32 - n))) % 4294967296

def smallSigma0 (x : Nat) : Nat := (rotr 7 x) ^^^ (rotr 18 x) ^^^ (x >>> 3)

def smallSigma1 (x : Nat) : Nat := (rotr 17 x) ^^^ (rotr 19 x) ^^^ (x >>> 10)

def bigSigma0 (x : Nat) : Nat := (rotr 2 x) ^^^ (rotr 13 x) ^^^ (rotr 22 x)

def bigSigma1 (x : Nat) : Nat := (rotr 6 x) ^^^ (rotr 11 x) ^^^ (rotr 25 x)

/-- The 64 SHA-256 round constants of FIPS 180-4, as decimal words. -/
def Kconst : List Nat :=
  [1116352408, 1899447441, 3049323471, 3921009573, 961987163, 1508970993,
   2453635748, 2870763221, 3624381080, 310598401, 607225278, 1426881987,
   1925078388, 2162078206, 2614888103, 3248222580, 3835390401, 4022224774,
   264347078, 604807628, 770255983, 1249150122, 1555081692, 1996064986,
   2554220882, 2821834349, 2952996808, 3210313671, 3336571891, 3584528711,
   113926993, 338241895, 666307205, 773529912, 1294757372, 1396182291,
   1695183700, 1986661051, 2177026350, 2456956037, 2730485921, 2820302411,
   3259730800, 3345764771, 3516065817, 3600352804, 4094571909, 275423344,
   430227734, 506948616, 659060556, 883997877, 958139571, 1322822218,
   1537002063, 1747873779, 1955562222, 2024104815, 2227730452, 2361852424,
   2428436474, 2756734187, 3204031479, 3329325298]

/-- The initial SHA-256 state of FIPS 180-4, as decimal words. -/
def H0 : List Nat :=
  [1779033703, 3144134277, 1013904242, 2773480762,
   1359893119, 2600822924, 528734635, 1541459225]

/-- Big-endian packing of a 64-byte block into 16 words. -/
def toWords : List Nat → List Nat
  | b0 :: b1 :: b2 :: b3 :: rest =>
    (b0 * 16777216 + b1 * 65536 + b2 * 256 + b3) :: toWords rest
  | _ => []

/-- Message-schedule extension: append one word n times. -/
def extendW : List Nat → Nat → List Nat
  | w, 0 => w
  | w, n + 1 =>
    extendW
      (w ++ [(smallSigma1 (w.getD (w.length - 2) 0) + w.getD (w.length - 7) 0 +
              smallSigma0 (w.getD (w.length - 15) 0) + w.getD (w.length - 16) 0) % 4294967296])
      n

/-- One compression round; the state is the eight working variables a..h. -/
def roundStep (st : List Nat) (kw : Nat × Nat) : List Nat :=
  let a := st.getD 0 0
  let b := st.getD 1 0
  let c := st.getD 2 0
  let d := st.getD 3 0
  let e := st.getD 4 0
  let f := st.getD 5 0
  let g := st.getD 6 0
  let h := st.getD 7 0
  let ch := (e &&& f) ^^^ ((e ^^^ 4294967295) &&& g)
  let temp1 := (h + bigSigma1 e + ch + kw.1 + kw.2) % 4294967296
  let maj := (a &&& b) ^^^ (a &&& c) ^^^ (b &&& c)
  let temp2 := (bigSigma0 a + maj) % 4294967296
  [(temp1 + temp2) % 4294967296, a, b, c, (d + temp1) % 4294967296, e, f, g]

/-- Compress one 64-byte block into the hash state. -/
def compress (h : List Nat) (block : List Nat) : List Nat :=
  let w := extendW (toWords block) 48
  let st := (Kconst.zip w).foldl roundStep h
  List.zipWith (fun x y => (x + y) % 4294967296) h st

/-- Split into 64-byte chunks; the fuel (any bound on the chunk count,
the list length is used) keeps the recursion structural. -/
def toBlocksGo : Nat → List Nat → List (List Nat)
  | 0, _ => []
  | _, [] => []
  | fuel + 1, a :: l => ((a :: l).take 64) :: toBlocksGo fuel ((a :: l).drop 64)

/-- Big-endian 8-byte encoding of the bit length. -/
def lenBE (n : Nat) : List Nat :=
  [(n >>> 56) % 256, (n >>> 48) % 256, (n >>> 40) % 256, (n >>> 32) % 256,
   (n >>> 24) % 256, (n >>> 16) % 256, (n >>> 8) % 256, n % 256]

/-- SHA-256 padding: a 0x80 byte, zeros to 56 mod 64, then the bit length. -/
def pad (msg : List Nat) : List Nat :=
  msg ++ 128 :: List.replicate ((119 - msg.length % 64) % 64) 0 ++ lenBE (msg.length * 8)

/-- Big-endian bytes of one 32-bit word. -/
def wordBytes (w : Nat) : List Nat :=
  [(w >>> 24) % 256, (w >>> 16) % 256, (w >>> 8) % 256, w % 256]

/-- The SHA-256 digest (32 bytes) of a byte list. -/
def sha256 (msg : List Nat) : List Nat :=
  let padded := pad msg
  ((toBlocksGo padded.length padded).foldl compress H0).flatMap wordBytes

/-- Lowercase hexadecimal digit. -/
def hexChar (n : Nat) : Char := Char.ofNat (if n < 10 then 48 + n else 87 + n)

/-- Two lowercase hex digits of a byte (hexdigest rendering). -/
def byteHex (b : Nat) : List Char := [hexChar (b / 16 % 16), hexChar (b % 16)]

/-- hashlib hexdigest of a byte list, as characters. -/
def sha256hexChars (msg : List Nat) : List Char := (sha256 msg).flatMap byteHex

/-- hashlib hexdigest of a byte list: 64 lowercase hex characters. -/
def sha256hex (msg : List Nat) : String := String.mk (sha256hexChars msg)

/-! ## str.encode(): UTF-8 bytes of a string. -/

/-- UTF-8 encoding of one character. -/
def utf8Char (c : Char) : List Nat :=
  let n := c.toNat
  if n < 128 then [n]
  else if n < 2048 then [192 + n / 64, 128 + n % 64]
  else if n < 65536 then [224 + n / 4096, 128 + n / 64 % 64, 128 + n % 64]
  else [240 + n / 262144, 128 + n / 4096 % 64, 128 + n / 64 % 64, 128 + n % 64]

/-- str.encode(): the UTF-8 bytes of a string. -/
def strBytes (s : String) : List Nat := s.data.flatMap utf8Char

/-! ## str(int): Python decimal rendering of integers. -/

/-- Decimal digits of a natural number. -/
def natStr (n : Nat) : String := (Nat.toDigits 10 n).asString

/-- str(i) for a Python int: optional minus sign and decimal digits. -/
def intStr (i : Int) : String := if i < 0 then "-" ++ natStr i.natAbs else natStr i.natAbs

set_option maxRecDepth 100000 in
theorem sha256_abc :
    sha256hex (strBytes "abc") =
      "ba7816bf8f01cfea414140de5dae2223b00361a396177a9cb410ff61f20015ad" := by decide

/-! ## json.dumps with sort_keys=True, default separators and ensure_ascii,
for the fixed object shapes the program serializes. -/

/-- Four lowercase hex digits (the u-escape payload). -/
def hex4 (n : Nat) : String :=
  String.mk [hexChar (n / 4096 % 16), hexChar (n / 256 % 16), hexChar (n / 16 % 16), hexChar (n % 16)]

/-- JSON escaping of one character, as json.dumps with ensure_ascii=True
does it: backslash, quote and the five short escapes, u-escapes (with
surrogate pairs beyond the basic plane) for anything outside 0x20..0x7e. -/
def escChar (c : Char) : String :=
  if c = '\\' then "\\\\"
  else if c = '"' then "\\\""
  else
    let n := c.toNat
    if n = 8 then "\\b"
    else if n = 9 then "\\t"
    else if n = 10 then "\\n"
    else if n = 12 then "\\f"
    else if n = 13 then "\\r"
    else if n < 32 || n > 126 then
      if n < 65536 then "\\u" ++ hex4 n
      else "\\u" ++ hex4 (55296 + (n - 65536) / 1024) ++ "\\u" ++ hex4 (56320 + (n - 65536) % 1024)
    else String.singleton c

def jsonEscape (s : String) : String := String.join (s.data.map escChar)

/-- A JSON string literal. -/
def jsonStr (s : String) : String := "\"" ++ jsonEscape s ++ "\""

/-- Strings compared as Python compares str: lexicographically by code point. -/
def charsLt : List Char → List Char → Bool
  | [], [] => false
  | [], _ :: _ => true
  | _ :: _, [] => false
  | a :: as, b :: bs =>
    if a.toNat < b.toNat then true
    else if b.toNat < a.toNat then false
    else charsLt as bs

/-- The key comparison sorted() uses on object entries. -/
def keyLt (a b : String × String) : Bool := charsLt a.1.data b.1.data

/-- Sorted insertion of one entry: past every strictly smaller key. -/
def insertPair (kv : String × String) : List (String × String) → List (String × String)
  | [] => [kv]
  | x :: xs => if keyLt x kv then x :: insertPair kv xs else kv :: x :: xs

/-- sort_keys=True: object entries ordered by key. -/
def sortPairs : List (String × String) → List (String × String)
  | [] => []
  | kv :: rest => insertPair kv (sortPairs rest)

/-- One object entry with json.dumps' default key separator. -/
def renderPair (kv : String × String) : String := "\"" ++ jsonEscape kv.1 ++ "\": " ++ kv.2

/-- A JSON object from rendered (key, value) entries: keys sorted, entries
joined with the default item separator. -/
def dumpObj (fields : List (String × String)) : String :=
  "\x7b" ++ String.intercalate ", " ((sortPairs fields).map renderPair) ++ "\x7d"

/-- A JSON array from rendered items. -/
def dumpArr (items : List String) : String := "[" ++ String.intercalate ", " items ++ "]"

/-! ## The data model of blockchain.py.

previous_hash is 1 (a Python int) on the genesis block, a hex digest
string on mined blocks, and None when new_block's optional argument is
omitted; the three shapes are a tagged value here. The timestamp field
holds the text json.dumps emits for the float time() returned at block
creation; wall-clock time is impure, so every operation that reads
time() takes that text as an explicit parameter. -/

inductive PrevHash where
  | null : PrevHash
  | int : Int → PrevHash
  | str : String → PrevHash
deriving DecidableEq

structure Transaction where
  sender : String
  recipient : String
  amount : Int
deriving DecidableEq

structure Block where
  index : Nat
  proof : Int
  timestamp : String
  transactions : List Transaction
  previous_hash : PrevHash
deriving DecidableEq

/-- The mutable state of the Blockchain object: self.chain and
self.current_transactions. -/
structure BCState where
  chain : List Block
  current_transactions : List Transaction
deriving DecidableEq

def prevHashDump : PrevHash → String
  | .null => "null"
  | .int n => intStr n
  | .str s => jsonStr s

/-- The entries of a transaction dict, in construction order. -/
def txFields (t : Transaction) : List (String × String) :=
  [("sender", jsonStr t.sender), ("recipient", jsonStr t.recipient), ("amount", intStr t.amount)]

def txDump (t : Transaction) : String := dumpObj (txFields t)

/-- The entries of a block dict, in the construction order of new_block. -/
def blockFields (b : Block) : List (String × String) :=
  [("index", intStr (b.index : Int)), ("proof", intStr b.proof), ("timestamp", b.timestamp),
   ("transactions", dumpArr (b.transactions.map txDump)),
   ("previous_hash", prevHashDump b.previous_hash)]

/-- json.dumps(block, sort_keys=True). -/
def blockDump (b : Block) : String := dumpObj (blockFields b)

/-! ## The Blockchain operations. -/

namespace Blockchain

/-- new_block: seal the pending transactions into a block appended to the
chain; returns the block and the successor state. -/
def new_block (s : BCState) (t : String) (proof : Int) (previous_hash : PrevHash := .null) :
    Block × BCState :=
  let block : Block :=
    { index := s.chain.length + 1, proof := proof, timestamp := t,
      transactions := s.current_transactions, previous_hash := previous_hash }
  (block, { chain := s.chain ++ [block], current_transactions := [] })

/-- Blockchain.hash: sha256 of the sorted-key JSON text of the block,
as a lowercase hex digest. -/
def hash (block : Block) : String := sha256hex (strBytes (blockDump block))

/-- The last_block property: chain[-1], which raises on an empty chain. -/
def last_block (s : BCState) : Option Block := s.chain.getLast?

/-- valid_proof: sha256 of the stringified block concatenated with
str(proof); true iff the first six hex characters are '000000'. -/
def valid_proof (block_string : String) (proof : Int) : Bool :=
  let guess := strBytes (block_string ++ intStr proof)
  let guess_hash := sha256hexChars guess
  guess_hash.take 6 == ['0', '0', '0', '0', '0', '0']

/-- new_transaction: append to current_transactions and report the index
of the next block (reading last_block, which raises on an empty chain). -/
def new_transaction (s : BCState) (sender recipient : String) (amount : Int) :
    BCState × Option Nat :=
  let s2 : BCState :=
    { s with current_transactions := s.current_transactions ++ [⟨sender, recipient, amount⟩] }
  (s2, (last_block s2).map fun b => b.index + 1)

/-- The constructor: empty chain and queue, then the genesis block via
new_block(previous_hash=1, proof=100) at the construction-time clock. -/
def init (t : String) : BCState := (new_block ⟨[], []⟩ t 100 (.int 1)).2

end Blockchain

/-! ## The mine endpoint. -/

/-- The response body of POST /mine: the missing-fields message, the
try-again message, or success carrying the reported block fields. -/
inductive MineResp where
  | missing : MineResp
  | invalid : MineResp
  | success : Nat → List Transaction → Int → PrevHash → MineResp
deriving DecidableEq

def MineResp.message : MineResp → String
  | .missing => "Missing required fields."
  | .invalid => "Invalid Proof. Unsuccessful Try again."
  | .success _ _ _ _ => "Congratulation! New block is found"

/-- The mine handler: state, the optional proof and id fields of the JSON
body, and the clock text for the block that may be created. Returns the
successor state, the HTTP status and the response; none models the
uncaught IndexError of chain[-1] on an empty chain (unreachable after
construction). -/
def mine (s : BCState) (proofField : Option Int) (idField : Option String) (t : String) :
    Option (BCState × Nat × MineResp) :=
  match proofField, idField with
  | some proof_sent, some recipient_id =>
    match Blockchain.last_block s with
    | none => none
    | some lb =>
      let blk_str := blockDump lb
      if Blockchain.valid_proof blk_str proof_sent then
        let r := Blockchain.new_block s t proof_sent (.str (Blockchain.hash lb))
        let s2 := (Blockchain.new_transaction r.2 "0" recipient_id 1).1
        some (s2, 200, .success r.1.index r.1.transactions r.1.proof r.1.previous_hash)
      else
        some (s, 200, .invalid)
  | _, _ => some (s, 400, .missing)

/-! ## Order lemmas for the key sort. -/

theorem char_toNat_injective : Function.Injective Char.toNat :=
  StrictMono.injective fun _ _ h => h

theorem string_data_inj {s t : String} (h : s.data = t.data) : s = t := by
  cases s; cases t; exact congrArg String.mk h

theorem charsLt_asymm : ∀ a b : List Char, charsLt a b = true → charsLt b a = false
  | [], [] => by intro h; simp [charsLt] at h
  | [], _ :: _ => by intro _; simp [charsLt]
  | _ :: _, [] => by intro h; simp [charsLt] at h
  | a :: as, b :: bs => by
    intro h
    simp only [charsLt] at h ⊢
    by_cases h1 : a.toNat < b.toNat
    · rw [if_neg (Nat.lt_asymm h1), if_pos h1]
    · by_cases h2 : b.toNat < a.toNat
      · rw [if_neg h1, if_pos h2] at h
        exact absurd h (by simp)
      · rw [if_neg h1, if_neg h2] at h
        rw [if_neg h2, if_neg h1]
        exact charsLt_asymm as bs h

theorem charsLt_false_trans :
    ∀ a b c : List Char, charsLt a b = false → charsLt b c = false → charsLt a c = false
  | _, [], [] => fun h1 _ => h1
  | _ :: _, _, [] => fun _ _ => by simp [charsLt]
  | _, [], _ :: _ => fun _ h2 => by simp [charsLt] at h2
  | [], _ :: _, _ => fun h1 _ => by simp [charsLt] at h1
  | a :: as, b :: bs, c :: cs => fun h1 h2 => by
    simp only [charsLt] at h1 h2 ⊢
    by_cases hab : a.toNat < b.toNat
    · rw [if_pos hab] at h1; exact absurd h1 (by simp)
    · by_cases hbc : b.toNat < c.toNat
      · rw [if_pos hbc] at h2; exact absurd h2 (by simp)
      · rw [if_neg (by omega : ¬ a.toNat < c.toNat)]
        by_cases hca : c.toNat < a.toNat
        · rw [if_pos hca]
        · rw [if_neg hca]
          rw [if_neg hab, if_neg (by omega : ¬ b.toNat < a.toNat)] at h1
          rw [if_neg hbc, if_neg (by omega : ¬ c.toNat < b.toNat)] at h2
          exact charsLt_false_trans as bs cs h1 h2

theorem charsLt_false_eq :
    ∀ a b : List Char, charsLt a b = false → charsLt b a = false → a = b
  | [], [] => fun _ _ => rfl
  | [], _ :: _ => fun h1 _ => by simp [charsLt] at h1
  | _ :: _, [] => fun _ h2 => by simp [charsLt] at h2
  | a :: as, b :: bs => fun h1 h2 => by
    simp only [charsLt] at h1 h2
    by_cases hab : a.toNat < b.toNat
    · rw [if_pos hab] at h1; exact absurd h1 (by simp)
    · by_cases hba : b.toNat < a.toNat
      · rw [if_pos hba] at h2; exact absurd h2 (by simp)
      · rw [if_neg hab, if_neg hba] at h1
        rw [if_neg hba, if_neg hab] at h2
        have hc : a = b := char_toNat_injective (by omega)
        rw [hc, charsLt_false_eq as bs h1 h2]

theorem keyLt_asymm {x y : String × String} (h : keyLt x y = true) : keyLt y x = false :=
  charsLt_asymm _ _ h

theorem keyLt_false_trans {x y z : String × String}
    (h1 : keyLt x y = false) (h2 : keyLt y z = false) : keyLt x z = false :=
  charsLt_false_trans _ _ _ h1 h2

theorem keyLt_false_key_eq {x y : String × String}
    (h1 : keyLt x y = false) (h2 : keyLt y x = false) : x.1 = y.1 :=
  string_data_inj (charsLt_false_eq _ _ h1 h2)

/-! ## Sortedness and permutation facts about sortPairs. -/

/-- Ascending by key: no later entry has a strictly smaller key. -/
def SortedKeys (l : List (String × String)) : Prop :=
  List.Pairwise (fun x y => keyLt y x = false) l

theorem insertPair_perm (kv : String × String) :
    ∀ l : List (String × String), (insertPair kv l).Perm (kv :: l)
  | [] => List.Perm.refl _
  | x :: xs => by
    simp only [insertPair]
    by_cases h : keyLt x kv = true
    · rw [if_pos h]
      exact ((insertPair_perm kv xs).cons x).trans (List.Perm.swap kv x xs)
    · rw [if_neg h]

theorem insertPair_sorted (kv : String × String) :
    ∀ l : List (String × String), SortedKeys l → SortedKeys (insertPair kv l)
  | [] => fun _ => by simp [insertPair, SortedKeys]
  | x :: xs => fun h => by
    simp only [insertPair]
    rcases List.pairwise_cons.mp h with ⟨hx, hxs⟩
    by_cases hc : keyLt x kv = true
    · rw [if_pos hc]
      refine List.pairwise_cons.mpr ⟨?_, insertPair_sorted kv xs hxs⟩
      intro y hy
      rcases List.mem_cons.mp ((insertPair_perm kv xs).mem_iff.mp hy) with hy1 | hy2
      · rw [hy1]; exact keyLt_asymm hc
      · exact hx y hy2
    · rw [if_neg hc]
      refine List.pairwise_cons.mpr ⟨?_, h⟩
      intro y hy
      rcases List.mem_cons.mp hy with hy1 | hy2
      · rw [hy1]; exact Bool.eq_false_iff.mpr hc
      · exact keyLt_false_trans (hx y hy2) (Bool.eq_false_iff.mpr hc)

theorem sortPairs_perm : ∀ l : List (String × String), (sortPairs l).Perm l
  | [] => List.Perm.refl _
  | kv :: rest => (insertPair_perm kv (sortPairs rest)).trans ((sortPairs_perm rest).cons kv)

theorem sortPairs_sorted : ∀ l : List (String × String), SortedKeys (sortPairs l)
  | [] => by simp [sortPairs, SortedKeys]
  | kv :: rest => insertPair_sorted kv (sortPairs rest) (sortPairs_sorted rest)

/-- Strictly ascending by key. -/
def StrictKeys (l : List (String × String)) : Prop :=
  List.Pairwise (fun x y => keyLt x y = true) l

theorem strictKeys_of_sorted_nodup {l : List (String × String)}
    (hs : SortedKeys l) (hn : (l.map Prod.fst).Nodup) : StrictKeys l := by
  have hp : List.Pairwise (fun x y : String × String => x.1 ≠ y.1) l :=
    List.pairwise_map.mp hn
  refine List.Pairwise.imp₂ ?_ hs hp
  intro x y h1 h2
  by_cases hxy : keyLt x y = true
  · exact hxy
  · exact absurd (keyLt_false_key_eq (Bool.eq_false_iff.mpr hxy) h1) h2

theorem eq_of_perm_strictKeys :
    ∀ l1 l2 : List (String × String), l1.Perm l2 → StrictKeys l1 → StrictKeys l2 → l1 = l2
  | [], l2 => fun hp _ _ => (hp.nil_eq).symm ▸ rfl
  | a :: as, l2 => fun hp h1 h2 => by
    cases l2 with
    | nil => exact absurd hp.symm (by simp)
    | cons b bs =>
      rcases List.pairwise_cons.mp h1 with ⟨ha, has⟩
      rcases List.pairwise_cons.mp h2 with ⟨hb, hbs⟩
      have hab : a = b := by
        by_contra hne
        have hamem : a ∈ bs := by
          rcases List.mem_cons.mp (hp.mem_iff.mp (List.mem_cons_self a as)) with h | h
          · exact absurd h hne
          · exact h
        have hbmem : b ∈ as := by
          rcases List.mem_cons.mp (hp.symm.mem_iff.mp (List.mem_cons_self b bs)) with h | h
          · exact absurd h.symm hne
          · exact h
        have t1 : keyLt a b = true := ha b hbmem
        have t2 : keyLt b a = true := hb a hamem
        rw [keyLt_asymm t1] at t2
        exact absurd t2 (by simp)
      subst hab
      rw [eq_of_perm_strictKeys as bs (hp.cons_inv) has hbs]

theorem sortPairs_eq_of_perm {l1 l2 : List (String × String)}
    (hp : l1.Perm l2) (hn : (l1.map Prod.fst).Nodup) : sortPairs l1 = sortPairs l2 := by
  have hn2 : (l2.map Prod.fst).Nodup := ((hp.map Prod.fst).nodup_iff).mp hn
  have hns1 : ((sortPairs l1).map Prod.fst).Nodup :=
    (((sortPairs_perm l1).map Prod.fst).nodup_iff).mpr hn
  have hns2 : ((sortPairs l2).map Prod.fst).Nodup :=
    (((sortPairs_perm l2).map Prod.fst).nodup_iff).mpr hn2
  refine eq_of_perm_strictKeys _ _ ?_ ?_ ?_
  · exact ((sortPairs_perm l1).trans hp).trans (sortPairs_perm l2).symm
  · exact strictKeys_of_sorted_nodup (sortPairs_sorted l1) hns1
  · exact strictKeys_of_sorted_nodup (sortPairs_sorted l2) hns2

theorem dumpObj_eq_of_perm {l1 l2 : List (String × String)}
    (hp : l1.Perm l2) (hn : (l1.map Prod.fst).Nodup) : dumpObj l1 = dumpObj l2 := by
  unfold dumpObj
  rw [sortPairs_eq_of_perm hp hn]

/-! ## Shape facts about the digest. -/

theorem roundStep_length (st : List Nat) (kw : Nat × Nat) : (roundStep st kw).length = 8 := rfl

theorem foldl_roundStep_length :
    ∀ (l : List (Nat × Nat)) (st : List Nat), st.length = 8 → (l.foldl roundStep st).length = 8
  | [], _ => fun h => h
  | kw :: l, st => fun _ => foldl_roundStep_length l (roundStep st kw) rfl

theorem compress_length (h b : List Nat) (hh : h.length = 8) : (compress h b).length = 8 := by
  unfold compress
  rw [List.length_zipWith, foldl_roundStep_length _ _ hh, hh]
  exact min_self 8

theorem foldl_compress_length :
    ∀ (bl : List (List Nat)) (hst : List Nat), hst.length = 8 → (bl.foldl compress hst).length = 8
  | [], _ => fun h => h
  | b :: bl, hst => fun h => foldl_compress_length bl (compress hst b) (compress_length _ _ h)

theorem flatMap_wordBytes_length : ∀ l : List Nat, (l.flatMap wordBytes).length = 4 * l.length
  | [] => rfl
  | w :: l => by
    rw [List.flatMap_cons, List.length_append, flatMap_wordBytes_length l, List.length_cons]
    show 4 + 4 * l.length = 4 * (l.length + 1)
    omega

theorem sha256_length (msg : List Nat) : (sha256 msg).length = 32 := by
  unfold sha256
  rw [flatMap_wordBytes_length, foldl_compress_length _ _ (show H0.length = 8 from rfl)]

theorem flatMap_byteHex_length : ∀ l : List Nat, (l.flatMap byteHex).length = 2 * l.length
  | [] => rfl
  | b :: l => by
    rw [List.flatMap_cons, List.length_append, flatMap_byteHex_length l, List.length_cons]
    show 2 + 2 * l.length = 2 * (l.length + 1)
    omega

theorem sha256hexChars_length (msg : List Nat) : (sha256hexChars msg).length = 64 := by
  unfold sha256hexChars
  rw [flatMap_byteHex_length, sha256_length]

theorem hexChar_mem_digits : ∀ n, n < 16 → hexChar n ∈ ("0123456789abcdef").data := by decide

theorem sha256hexChars_mem {msg : List Nat} {c : Char} (h : c ∈ sha256hexChars msg) :
    c ∈ ("0123456789abcdef").data := by
  rcases List.mem_flatMap.mp h with ⟨b, _, hc⟩
  rcases List.mem_cons.mp hc with h1 | h1
  · rw [h1]; exact hexChar_mem_digits _ (Nat.mod_lt _ (by omega))
  · rcases List.mem_cons.mp h1 with h2 | h2
    · rw [h2]; exact hexChar_mem_digits _ (Nat.mod_lt _ (by omega))
    · simp at h2

/-- For a 64-character digest, the first six characters being '0' is the
same as the 6-character prefix being "000000". -/
theorem take6_eq_iff {l : List Char} (h : l.length = 64) :
    l.take 6 = ['0', '0', '0', '0', '0', '0'] ↔ ∀ i, i < 6 → l.getD i ' ' = '0' := by
  rcases l with _ | ⟨c0, l⟩; · simp at h
  rcases l with _ | ⟨c1, l⟩; · simp at h
  rcases l with _ | ⟨c2, l⟩; · simp at h
  rcases l with _ | ⟨c3, l⟩; · simp at h
  rcases l with _ | ⟨c4, l⟩; · simp at h
  rcases l with _ | ⟨c5, l⟩; · simp at h
  rw [show (c0 :: c1 :: c2 :: c3 :: c4 :: c5 :: l).take 6 = [c0, c1, c2, c3, c4, c5] from rfl]
  constructor
  · intro hl i hi
    obtain ⟨h0, h1, h2, h3, h4, h5⟩ : c0 = '0' ∧ c1 = '0' ∧ c2 = '0' ∧ c3 = '0' ∧ c4 = '0' ∧ c5 = '0' := by
      simpa using hl
    interval_cases i
    · exact h0
    · exact h1
    · exact h2
    · exact h3
    · exact h4
    · exact h5
  · intro hr
    have e0 : c0 = '0' := hr 0 (by omega)
    have e1 : c1 = '0' := hr 1 (by omega)
    have e2 : c2 = '0' := hr 2 (by omega)
    have e3 : c3 = '0' := hr 3 (by omega)
    have e4 : c4 = '0' := hr 4 (by omega)
    have e5 : c5 = '0' := hr 5 (by omega)
    rw [e0, e1, e2, e3, e4, e5]

/-! ## Reachability.

Reachable: the states the running service can be in — construction
followed by any sequence of POST /mine requests (the only endpoint that
mutates state; /chain and /last_block only read).

ReachableOp: closure under every engine operation called with arbitrary
arguments (new_block, new_transaction and the mine handler). -/

inductive Reachable : BCState → Prop where
  | boot (t : String) : Reachable (Blockchain.init t)
  | step (s : BCState) (pf : Option Int) (pid : Option String) (t : String)
      (s2 : BCState) (code : Nat) (resp : MineResp) :
      Reachable s → mine s pf pid t = some (s2, code, resp) → Reachable s2

inductive ReachableOp : BCState → Prop where
  | boot (t : String) : ReachableOp (Blockchain.init t)
  | block (s : BCState) (t : String) (proof : Int) (ph : PrevHash) :
      ReachableOp s → ReachableOp (Blockchain.new_block s t proof ph).2
  | tx (s : BCState) (sender recipient : String) (amount : Int) :
      ReachableOp s → ReachableOp (Blockchain.new_transaction s sender recipient amount).1
  | handler (s : BCState) (pf : Option Int) (pid : Option String) (t : String)
      (s2 : BCState) (code : Nat) (resp : MineResp) :
      ReachableOp s → mine s pf pid t = some (s2, code, resp) → ReachableOp s2

/-- Every non-genesis block carries the hash of its predecessor. -/
def chainLinked (c : List Block) : Prop :=
  List.Chain' (fun a b => b.previous_hash = PrevHash.str (Blockchain.hash a)) c

/-- chain[i].index = i + 1 at every position. -/
def indicesOk (c : List Block) : Prop :=
  ∀ i, i < c.length → (c.map Block.index).getD i 0 = i + 1

/-- A sequence of create_block calls: each entry is the clock text, the
proof and the previous_hash argument of one call. -/
def applyBlocks (s : BCState) (args : List (String × Int × PrevHash)) : BCState :=
  args.foldl (fun st a => (Blockchain.new_block st a.1 a.2.1 a.2.2).2) s

/-! ## Unfolding equations for mine. -/

theorem mine_none_left (s : BCState) (pid : Option String) (t : String) :
    mine s none pid t = some (s, 400, .missing) := rfl

theorem mine_none_right (s : BCState) (proof : Int) (t : String) :
    mine s (some proof) none t = some (s, 400, .missing) := rfl

theorem mine_some (s : BCState) (proof : Int) (pid : String) (t : String) :
    mine s (some proof) (some pid) t =
      match Blockchain.last_block s with
      | none => none
      | some lb =>
        if Blockchain.valid_proof (blockDump lb) proof then
          some ({ chain := s.chain ++ [(Blockchain.new_block s t proof (.str (Blockchain.hash lb))).1],
                  current_transactions := [{ sender := "0", recipient := pid, amount := 1 }] },
                200,
                .success (Blockchain.new_block s t proof (.str (Blockchain.hash lb))).1.index
                  (Blockchain.new_block s t proof (.str (Blockchain.hash lb))).1.transactions
                  (Blockchain.new_block s t proof (.str (Blockchain.hash lb))).1.proof
                  (Blockchain.new_block s t proof (.str (Blockchain.hash lb))).1.previous_hash)
        else some (s, 200, .invalid) := rfl

theorem mine_some_of_last (s : BCState) (proof : Int) (pid : String) (t : String)
    (lb : Block) (hlb : Blockchain.last_block s = some lb) :
    mine s (some proof) (some pid) t =
      if Blockchain.valid_proof (blockDump lb) proof then
        some ({ chain := s.chain ++ [(Blockchain.new_block s t proof (.str (Blockchain.hash lb))).1],
                current_transactions := [{ sender := "0", recipient := pid, amount := 1 }] },
              200,
              .success (Blockchain.new_block s t proof (.str (Blockchain.hash lb))).1.index
                (Blockchain.new_block s t proof (.str (Blockchain.hash lb))).1.transactions
                (Blockchain.new_block s t proof (.str (Blockchain.hash lb))).1.proof
                (Blockchain.new_block s t proof (.str (Blockchain.hash lb))).1.previous_hash)
      else some (s, 200, .invalid) := by
  rw [mine_some, hlb]

/-- Every successful mine call either leaves the state alone or appends
the block new_block builds for the old last block's hash and leaves
exactly the reward transaction queued. -/
theorem mine_state_cases {s : BCState} {pf : Option Int} {pid : Option String} {t : String}
    {s2 : BCState} {code : Nat} {resp : MineResp}
    (h : mine s pf pid t = some (s2, code, resp)) :
    s2 = s ∨
      ∃ lb proof, Blockchain.last_block s = some lb ∧
        Blockchain.valid_proof (blockDump lb) proof = true ∧
        ∃ pid' : String,
          s2 = { chain := s.chain ++ [(Blockchain.new_block s t proof (PrevHash.str (Blockchain.hash lb))).1],
                 current_transactions := [{ sender := "0", recipient := pid', amount := 1 }] } := by
  cases pf with
  | none =>
    rw [mine_none_left] at h
    simp only [Option.some.injEq, Prod.mk.injEq] at h
    exact Or.inl h.1.symm
  | some proof =>
    cases pid with
    | none =>
      rw [mine_none_right] at h
      simp only [Option.some.injEq, Prod.mk.injEq] at h
      exact Or.inl h.1.symm
    | some pid' =>
      cases hlb : Blockchain.last_block s with
      | none => rw [mine_some, hlb] at h; simp at h
      | some lb =>
        rw [mine_some_of_last s proof pid' t lb hlb] at h
        by_cases hv : Blockchain.valid_proof (blockDump lb) proof
        · rw [if_pos hv] at h
          simp only [Option.some.injEq, Prod.mk.injEq] at h
          exact Or.inr ⟨lb, proof, rfl, hv, pid', h.1.symm⟩
        · rw [if_neg hv] at h
          simp only [Option.some.injEq, Prod.mk.injEq] at h
          exact Or.inl h.1.symm

/-! ## Invariant preservation helpers. -/

theorem chainLinked_append {c : List Block} {blk : Block} (hc : chainLinked c)
    (hlast : ∀ x, c.getLast? = some x → blk.previous_hash = PrevHash.str (Blockchain.hash x)) :
    chainLinked (c ++ [blk]) := by
  unfold chainLinked at hc ⊢
  rw [List.chain'_append]
  refine ⟨hc, List.chain'_singleton _, ?_⟩
  intro x hx y hy
  simp only [List.head?_cons, Option.mem_def, Option.some.injEq] at hy
  rw [← hy]
  exact hlast x hx

theorem new_block_indicesOk (s : BCState) (t : String) (proof : Int) (ph : PrevHash)
    (h : indicesOk s.chain) : indicesOk (Blockchain.new_block s t proof ph).2.chain := by
  intro i hi
  have hlen : (Blockchain.new_block s t proof ph).2.chain.length = s.chain.length + 1 := by
    simp [Blockchain.new_block]
  rw [hlen] at hi
  show ((s.chain ++ [(Blockchain.new_block s t proof ph).1]).map Block.index).getD i 0 = i + 1
  rw [List.map_append]
  by_cases hlt : i < s.chain.length
  · rw [List.getD_append _ _ _ _ (by simpa using hlt)]
    exact h i hlt
  · have hieq : i = s.chain.length := by omega
    subst hieq
    rw [List.getD_append_right _ _ _ _ (by simp)]
    simp [Blockchain.new_block]

theorem init_indicesOk (t : String) : indicesOk (Blockchain.init t).chain := by
  intro i hi
  have : i = 0 := by
    simpa [Blockchain.init, Blockchain.new_block] using hi
  subst this
  rfl

/-! ## The claims. -/

/-- C1: valid_proof(s, p) returns true if and only if the lowercase hex
SHA-256 digest of the byte encoding of s concatenated (with no separator)
with the decimal string form of p has '0' as each of its first 6 hex
characters. -/
theorem valid_proof_iff_leading_zeros (s : String) (p : Int) :
    Blockchain.valid_proof s p = true ↔
      ∀ i, i < 6 → (sha256hexChars (strBytes (s ++ intStr p))).getD i ' ' = '0' := by
  simp only [Blockchain.valid_proof]
  rw [beq_iff_eq]
  exact take6_eq_iff (sha256hexChars_length (strBytes (s ++ intStr p)))

theorem sha256hex_data (m : List Nat) : (sha256hex m).data = sha256hexChars m := rfl

theorem sha256hex_length (m : List Nat) : (sha256hex m).length = 64 := by
  show (sha256hexChars m).length = 64
  exact sha256hexChars_length m

theorem hash_data (b : Block) :
    (Blockchain.hash b).data = sha256hexChars (strBytes (blockDump b)) :=
  sha256hex_data (strBytes (blockDump b))

theorem hash_dump_eq (b : Block) :
    Blockchain.hash b = sha256hex (strBytes (dumpObj (blockFields b))) := rfl

/-- C2: hash_block is deterministic and pure: the same unmodified block
always hashes to the same string, that string is the 64-character
lowercase hex SHA-256 digest of the canonical sorted-key serialization,
and the result does not depend on the insertion order of the block's
dictionary entries (any permutation of the field list serializes, and so
hashes, identically). -/
theorem hash_deterministic_canonical (b : Block) (fields : List (String × String))
    (hp : fields.Perm (blockFields b)) :
    Blockchain.hash b = Blockchain.hash b ∧
    (Blockchain.hash b).length = 64 ∧
    (∀ c ∈ (Blockchain.hash b).data, c ∈ ("0123456789abcdef").data) ∧
    Blockchain.hash b = sha256hex (strBytes (dumpObj fields)) := by
  have hnodup : ((blockFields b).map Prod.fst).Nodup := by
    rw [show (blockFields b).map Prod.fst =
      ["index", "proof", "timestamp", "transactions", "previous_hash"] from rfl]
    decide
  refine ⟨rfl, ?_, ?_, ?_⟩
  · exact sha256hex_length (strBytes (blockDump b))
  · intro c hc
    rw [hash_data] at hc
    exact sha256hexChars_mem hc
  · rw [dumpObj_eq_of_perm hp ((hp.map Prod.fst).nodup_iff.mpr hnodup)]
    exact hash_dump_eq b

/-- C2 witness: the statement instantiated at the genesis-shaped block
with its own field list (the identity permutation). -/
theorem hash_deterministic_canonical_witness :
    Blockchain.hash ⟨1, 100, "0", [], PrevHash.int 1⟩ =
      Blockchain.hash ⟨1, 100, "0", [], PrevHash.int 1⟩ ∧
    (Blockchain.hash ⟨1, 100, "0", [], PrevHash.int 1⟩).length = 64 ∧
    (∀ c ∈ (Blockchain.hash ⟨1, 100, "0", [], PrevHash.int 1⟩).data,
      c ∈ ("0123456789abcdef").data) ∧
    Blockchain.hash ⟨1, 100, "0", [], PrevHash.int 1⟩ =
      sha256hex (strBytes (dumpObj (blockFields ⟨1, 100, "0", [], PrevHash.int 1⟩))) :=
  hash_deterministic_canonical ⟨1, 100, "0", [], PrevHash.int 1⟩
    (blockFields ⟨1, 100, "0", [], PrevHash.int 1⟩) (List.Perm.refl _)

/-- C3: in every state reachable through the mine endpoint, every block
except genesis has previous_hash equal to Blockchain.hash of the
immediately preceding block (blocks are immutable once appended, so the
preceding block is exactly as it was when the successor was created). -/
theorem reachable_chain_linked (s : BCState) (h : Reachable s) : chainLinked s.chain := by
  induction h with
  | boot t => exact List.chain'_singleton _
  | step s pf pid t s2 code resp hr heq ih =>
    rcases mine_state_cases heq with h1 | ⟨lb, proof, hlb, hv, pid', h2⟩
    · rw [h1]; exact ih
    · rw [h2]
      refine chainLinked_append ih ?_
      intro x hx
      have hxl : some x = some lb := by rw [← hx]; exact hlb
      rw [Option.some.inj hxl]
      rfl

/-- C3 witness: the linkage invariant at the freshly constructed state. -/
theorem reachable_chain_linked_witness : chainLinked (Blockchain.init "0").chain :=
  reachable_chain_linked (Blockchain.init "0") (Reachable.boot "0")

/-- C4: a freshly constructed ledger holds exactly the genesis block, with
index 1, an empty transaction list, and the integer sentinel 1 (not a hash
string) as previous_hash; the pending queue is empty. -/
theorem init_genesis (t : String) :
    (Blockchain.init t).chain =
      [{ index := 1, proof := 100, timestamp := t, transactions := [],
         previous_hash := PrevHash.int 1 }] ∧
    (Blockchain.init t).current_transactions = [] ∧
    (∀ h : String, PrevHash.int 1 ≠ PrevHash.str h) :=
  ⟨rfl, rfl, fun _ => by simp⟩

/-- C5: create_block builds the block from the state at the moment of the
call (index = len(chain)+1, transactions = the pending queue, proof and
previous_hash as supplied), resets the pending queue to empty, appends the
returned block to the chain. -/
theorem new_block_spec (s : BCState) (t : String) (proof : Int) (previous_hash : PrevHash) :
    (Blockchain.new_block s t proof previous_hash).1.index = s.chain.length + 1 ∧
    (Blockchain.new_block s t proof previous_hash).1.transactions = s.current_transactions ∧
    (Blockchain.new_block s t proof previous_hash).1.proof = proof ∧
    (Blockchain.new_block s t proof previous_hash).1.previous_hash = previous_hash ∧
    (Blockchain.new_block s t proof previous_hash).2.chain =
      s.chain ++ [(Blockchain.new_block s t proof previous_hash).1] ∧
    (Blockchain.new_block s t proof previous_hash).2.current_transactions = [] :=
  ⟨rfl, rfl, rfl, rfl, rfl, rfl⟩

/-- C6: chain[i].index = i+1 holds in every state reachable by any engine
operation, and after N create_block calls on a fresh ledger the chain has
exactly N+1 blocks with indices 1..N+1 in order. -/
theorem index_invariant :
    (∀ s : BCState, ReachableOp s → indicesOk s.chain) ∧
    (∀ (t0 : String) (args : List (String × Int × PrevHash)),
      (applyBlocks (Blockchain.init t0) args).chain.length = args.length + 1 ∧
      indicesOk (applyBlocks (Blockchain.init t0) args).chain) := by
  have hreach : ∀ s : BCState, ReachableOp s → indicesOk s.chain := by
    intro s h
    induction h with
    | boot t => exact init_indicesOk t
    | block s t proof ph hr ih => exact new_block_indicesOk s t proof ph ih
    | tx s sender recipient amount hr ih => exact ih
    | handler s pf pid t s2 code resp hr heq ih =>
      rcases mine_state_cases heq with h1 | ⟨lb, proof, hlb, hv, pid', h2⟩
      · rw [h1]; exact ih
      · rw [h2]
        exact new_block_indicesOk s t proof (PrevHash.str (Blockchain.hash lb)) ih
  have happly : ∀ (args : List (String × Int × PrevHash)) (s : BCState),
      indicesOk s.chain →
      (applyBlocks s args).chain.length = s.chain.length + args.length ∧
      indicesOk (applyBlocks s args).chain := by
    intro args
    induction args with
    | nil => exact fun s h => ⟨rfl, h⟩
    | cons a args ih =>
      intro s h
      have hstep := new_block_indicesOk s a.1 a.2.1 a.2.2 h
      rcases ih (Blockchain.new_block s a.1 a.2.1 a.2.2).2 hstep with ⟨hl, hi⟩
      refine ⟨?_, hi⟩
      rw [show applyBlocks s (a :: args) =
        applyBlocks (Blockchain.new_block s a.1 a.2.1 a.2.2).2 args from rfl, hl]
      have : (Blockchain.new_block s a.1 a.2.1 a.2.2).2.chain.length = s.chain.length + 1 := by
        simp [Blockchain.new_block]
      rw [this, List.length_cons]
      omega
  refine ⟨hreach, fun t0 args => ?_⟩
  rcases happly args (Blockchain.init t0) (init_indicesOk t0) with ⟨hl, hi⟩
  refine ⟨?_, hi⟩
  rw [hl]
  have : (Blockchain.init t0).chain.length = 1 := rfl
  omega

/-- C7: on a mine request with both fields present and a valid proof, the
new block is sealed first and only then is the reward transaction
(sender "0", recipient the submitted id, amount 1) enqueued: the returned
block's transactions are the pre-call pending queue (so the reward is
absent from them whenever it was not already queued), the queue afterwards
holds exactly the reward for the following block, and the success response
reports the new block's index, transactions, proof and previous_hash. -/
theorem mine_success_reward_after_seal (s : BCState) (lb : Block) (proof : Int)
    (pid t : String) (hl : Blockchain.last_block s = some lb)
    (hv : Blockchain.valid_proof (blockDump lb) proof = true) :
    ∃ blk : Block,
      mine s (some proof) (some pid) t =
        some ({ chain := s.chain ++ [blk],
                current_transactions := [{ sender := "0", recipient := pid, amount := 1 }] },
              200, MineResp.success blk.index blk.transactions blk.proof blk.previous_hash) ∧
      blk.transactions = s.current_transactions ∧
      blk.previous_hash = PrevHash.str (Blockchain.hash lb) ∧
      ({ sender := "0", recipient := pid, amount := 1 } ∉ s.current_transactions →
        { sender := "0", recipient := pid, amount := 1 } ∉ blk.transactions) := by
  refine ⟨(Blockchain.new_block s t proof (PrevHash.str (Blockchain.hash lb))).1, ?_, rfl, rfl, ?_⟩
  · rw [mine_some_of_last s proof pid t lb hl, if_pos hv]
  · intro hnot hmem
    exact hnot hmem

set_option maxRecDepth 100000 in
/-- C7 witness: a concretely mined proof for the genesis state (found by
exhaustive search, checked here by evaluating the hash). -/
theorem mine_success_witness :
    ∃ blk : Block,
      mine (Blockchain.init "0") (some 6040034) (some "node123") "1" =
        some ({ chain := (Blockchain.init "0").chain ++ [blk],
                current_transactions := [{ sender := "0", recipient := "node123", amount := 1 }] },
              200, MineResp.success blk.index blk.transactions blk.proof blk.previous_hash) ∧
      blk.transactions = (Blockchain.init "0").current_transactions ∧
      blk.previous_hash = PrevHash.str (Blockchain.hash ⟨1, 100, "0", [], PrevHash.int 1⟩) ∧
      ({ sender := "0", recipient := "node123", amount := 1 } ∉ (Blockchain.init "0").current_transactions →
        { sender := "0", recipient := "node123", amount := 1 } ∉ blk.transactions) :=
  mine_success_reward_after_seal (Blockchain.init "0") ⟨1, 100, "0", [], PrevHash.int 1⟩
    6040034 "node123" "1" rfl (by decide)

/-- C8: a mine request missing the proof field or the id field is rejected
with the missing-fields response and status 400 and leaves the ledger
unchanged; one whose proof fails the leading-zero predicate gets the
try-again response (status 200) and likewise leaves the ledger unchanged. -/
theorem mine_rejections (s : BCState) (t : String) :
    (∀ (pf : Option Int) (pid : Option String), pf = none ∨ pid = none →
      mine s pf pid t = some (s, 400, MineResp.missing)) ∧
    (∀ (lb : Block) (proof : Int) (pid : String),
      Blockchain.last_block s = some lb →
      Blockchain.valid_proof (blockDump lb) proof = false →
      mine s (some proof) (some pid) t = some (s, 200, MineResp.invalid)) := by
  constructor
  · intro pf pid h
    rcases h with h | h
    · rw [h, mine_none_left]
    · rw [h]
      cases pf with
      | none => rw [mine_none_left]
      | some p => rw [mine_none_right]
  · intro lb proof pid hlb hv
    rw [mine_some_of_last s proof pid t lb hlb, if_neg (by simp [hv])]

/-- C9: new_transaction appends the transaction to the end of the pending
queue, leaves the chain unchanged, and returns last_block.index + 1, the
index of the block predicted to contain it. -/
theorem new_transaction_spec (s : BCState) (sender recipient : String) (amount : Int)
    (lb : Block) (hl : Blockchain.last_block s = some lb) :
    (Blockchain.new_transaction s sender recipient amount).1.current_transactions =
      s.current_transactions ++ [{ sender := sender, recipient := recipient, amount := amount }] ∧
    (Blockchain.new_transaction s sender recipient amount).1.chain = s.chain ∧
    (Blockchain.new_transaction s sender recipient amount).2 = some (lb.index + 1) := by
  refine ⟨rfl, rfl, ?_⟩
  have h2 : Blockchain.last_block (Blockchain.new_transaction s sender recipient amount).1 =
      some lb := hl
  show ((Blockchain.last_block (Blockchain.new_transaction s sender recipient amount).1).map
    fun b => b.index + 1) = some (lb.index + 1)
  rw [h2]
  rfl

/-- C9 witness: the spec instantiated on a fresh ledger. -/
theorem new_transaction_spec_witness :
    (Blockchain.new_transaction (Blockchain.init "0") "alice" "bob" 5).1.current_transactions =
      (Blockchain.init "0").current_transactions ++
        [{ sender := "alice", recipient := "bob", amount := 5 }] ∧
    (Blockchain.new_transaction (Blockchain.init "0") "alice" "bob" 5).1.chain =
      (Blockchain.init "0").chain ∧
    (Blockchain.new_transaction (Blockchain.init "0") "alice" "bob" 5).2 = some 2 :=
  new_transaction_spec (Blockchain.init "0") "alice" "bob" 5 ⟨1, 100, "0", [], PrevHash.int 1⟩ rfl

/-- C10: the previous_hash argument of new_block is optional and defaults
to None, so a call with only a proof yields a block whose previous_hash is
the None value, which is neither the genesis sentinel 1 nor any hash
string. -/
theorem new_block_default_previous_hash (s : BCState) (t : String) (proof : Int) :
    (Blockchain.new_block s t proof).1.previous_hash = PrevHash.null ∧
    PrevHash.null ≠ PrevHash.int 1 ∧ (∀ h : String, PrevHash.null ≠ PrevHash.str h) :=
  ⟨rfl, by simp, fun _ => by simp⟩
